import Mathlib

/-!
Verification development for the sonifai-backend repository.

The repository has two Python source files:
* `main.py` — a FastAPI service exposing `/transcribe`: it persists the uploaded
  audio, applies a loudness gate, invokes the external `basic-pitch` CLI tool,
  locates the produced MIDI file, cleans it with `clean_midi`, and returns it;
  temporary files are removed in a `finally` block.
* `evaluate.py` — an offline evaluation script with its own copy of `clean_midi`
  and its own threshold constants.

This file gives a shallow embedding of that code.  Note times and thresholds are
embedded as rationals (`ℚ`): the Python code computes with decimal literals and
ordinary arithmetic, and every comparison the claims depend on is exact at this
level.  Python's stable `list.sort(key=...)` is embedded as `List.insertionSort`
with the corresponding key order (insertion sort is stable in the same sense:
elements that compare equal keep their original relative order).
-/

/-- A `pretty_midi.Note`: pitch (semitone), start and end time in seconds,
and velocity. -/
structure Note where
  pitch : Int
  start : ℚ
  «end» : ℚ
  velocity : Int
deriving DecidableEq, Repr

/-- Order used by `notes.sort(key=lambda n: (n.pitch, n.start))`:
lexicographic on the key tuple `(pitch, start)`. -/
def lePS (a b : Note) : Prop :=
  a.pitch < b.pitch ∨ (a.pitch = b.pitch ∧ a.start ≤ b.start)

/-- Order used by `merged.sort(key=lambda n: n.start)`: comparison of start
times. -/
def leS (a b : Note) : Prop := a.start ≤ b.start

/-- Lexicographic order on the reversed key tuple `(start, pitch)`; a stable
start-time sort of a `(pitch, start)`-sorted list is sorted in this order. -/
def leSP (a b : Note) : Prop :=
  a.start < b.start ∨ (a.start = b.start ∧ a.pitch ≤ b.pitch)

/-- Strict version of `leSP`; antisymmetric, hence sorted lists for it are
unique up to permutation. -/
def ltSP (a b : Note) : Prop :=
  a.start < b.start ∨ (a.start = b.start ∧ a.pitch < b.pitch)

instance : DecidableRel lePS := fun a b =>
  inferInstanceAs (Decidable (a.pitch < b.pitch ∨ (a.pitch = b.pitch ∧ a.start ≤ b.start)))

instance : DecidableRel leS := fun a b => inferInstanceAs (Decidable (a.start ≤ b.start))

instance : DecidableRel leSP := fun a b =>
  inferInstanceAs (Decidable (a.start < b.start ∨ (a.start = b.start ∧ a.pitch ≤ b.pitch)))

instance : IsTotal Note lePS := by
  constructor
  intro a b
  rcases lt_trichotomy a.pitch b.pitch with h | h | h
  · exact Or.inl (Or.inl h)
  · rcases le_total a.start b.start with h2 | h2
    · exact Or.inl (Or.inr ⟨h, h2⟩)
    · exact Or.inr (Or.inr ⟨h.symm, h2⟩)
  · exact Or.inr (Or.inl h)

instance : IsTrans Note lePS := by
  constructor
  intro a b c hab hbc
  rcases hab with h1 | ⟨h1, h1'⟩
  · rcases hbc with h2 | ⟨h2, _⟩
    · exact Or.inl (h1.trans h2)
    · exact Or.inl (h2 ▸ h1)
  · rcases hbc with h2 | ⟨h2, h2'⟩
    · exact Or.inl (h1 ▸ h2)
    · exact Or.inr ⟨h1.trans h2, h1'.trans h2'⟩

instance : IsTotal Note leS := ⟨fun a b => le_total a.start b.start⟩

instance : IsTrans Note leS := ⟨fun _ _ _ h1 h2 => le_trans h1 h2⟩

instance : IsAntisymm Note ltSP := by
  constructor
  intro a b hab hba
  exfalso
  rcases hab with h1 | ⟨h1, h1'⟩ <;> rcases hba with h2 | ⟨h2, h2'⟩
  · exact absurd (h1.trans h2) (lt_irrefl _)
  · exact absurd h1 (h2 ▸ lt_irrefl _)
  · exact absurd h2 (h1 ▸ lt_irrefl _)
  · exact absurd (h1'.trans h2') (lt_irrefl _)

/-- The six keyword thresholds of `clean_midi`. -/
structure CleanParams where
  min_dur : ℚ
  min_velocity : Int
  merge_gap : ℚ
  min_pitch : Int
  max_pitch : Int
  legato_gap : ℚ
deriving DecidableEq, Repr

namespace Main

/-- Hard-filter condition of `clean_midi` step 1 (`main.py` lines 74-81):
`min_pitch <= n.pitch <= max_pitch and (n.end - n.start) >= min_dur and
n.velocity >= min_velocity`. -/
def keepProp (p : CleanParams) (n : Note) : Prop :=
  p.min_pitch ≤ n.pitch ∧ n.pitch ≤ p.max_pitch ∧
    p.min_dur ≤ n.«end» - n.start ∧ p.min_velocity ≤ n.velocity

instance : ∀ p n, Decidable (keepProp p n) := fun p n =>
  inferInstanceAs (Decidable (_ ∧ _ ∧ _ ∧ _))

/-- Merge loop of `clean_midi` step 2 (`main.py` lines 85-95), with `cur` the
note currently at the tail of `merged` (the Python `prev = merged[-1]`): a note
of the same pitch starting no later than `prev.end + merge_gap` is folded into
`prev` (end and velocity become the maxima), otherwise `prev` is emitted and the
note becomes the new tail. -/
def mergeGo (merge_gap : ℚ) (cur : Note) : List Note → List Note
  | [] => [cur]
  | n :: rest =>
      if n.pitch = cur.pitch ∧ n.start ≤ cur.«end» + merge_gap then
        mergeGo merge_gap
          { cur with «end» := max cur.«end» n.«end»,
                     velocity := max cur.velocity n.velocity } rest
      else
        cur :: mergeGo merge_gap n rest

/-- Merge pass of `clean_midi` step 2 over the `(pitch, start)`-sorted list. -/
def mergePass (merge_gap : ℚ) : List Note → List Note
  | [] => []
  | n :: rest => mergeGo merge_gap n rest

/-- Legato-gap fill of `clean_midi` step 3 (`main.py` lines 99-104): for each
consecutive pair `(a, b)` in start order, if `0 < b.start - a.end <= legato_gap`
then `a.end = max(a.end, b.start - 0.005)`.  Each iteration of the Python loop
reads the original `a.end` (index `i` is written only at step `i`) and
`b.start` (starts are never written), so the loop is this one-pass recursion.
`0.005` is the rational `1/200`. -/
def legatoFill (legato_gap : ℚ) : List Note → List Note
  | [] => []
  | [a] => [a]
  | a :: b :: rest =>
      (if 0 < b.start - a.«end» ∧ b.start - a.«end» ≤ legato_gap then
        { a with «end» := max a.«end» (b.start - 1/200) }
      else a) :: legatoFill legato_gap (b :: rest)

/-- Per-track body of `main.py`'s `clean_midi` (lines 72-106): hard filter, sort
by `(pitch, start)`, merge pass, sort by `start`, legato-gap fill. -/
def clean_track (p : CleanParams) (notes : List Note) : List Note :=
  legatoFill p.legato_gap
    (List.insertionSort leS
      (mergePass p.merge_gap
        (List.insertionSort lePS
          (notes.filter fun n => decide (keepProp p n)))))

/-- `main.py`'s `clean_midi` applied to the instrument tracks of a MIDI file:
each track is cleaned independently. -/
def clean_midi (p : CleanParams) (tracks : List (List Note)) : List (List Note) :=
  tracks.map (clean_track p)

/-- `main.py` line 39: `CLEAN_MIN_DUR = 0.16`. -/
def CLEAN_MIN_DUR : ℚ := 0.16

/-- `main.py` line 40: `CLEAN_MIN_VELOCITY = 28`. -/
def CLEAN_MIN_VELOCITY : Int := 28

/-- `main.py` line 41: `CLEAN_MERGE_GAP = 0.05`. -/
def CLEAN_MERGE_GAP : ℚ := 0.05

/-- `main.py` line 42: `CLEAN_LEGATO_GAP = 0.08`. -/
def CLEAN_LEGATO_GAP : ℚ := 0.08

/-- `main.py` line 46: `CLEAN_MIN_PITCH = 43`. -/
def CLEAN_MIN_PITCH : Int := 43

/-- `main.py` line 47: `CLEAN_MAX_PITCH = 80`. -/
def CLEAN_MAX_PITCH : Int := 80

/-- `main.py` line 36: `RMS_THRESHOLD = 0.02`. -/
def RMS_THRESHOLD : ℚ := 0.02

/-- The thresholds the `/transcribe` handler passes to `clean_midi`
(`main.py` lines 162-171). -/
def transcribeCleanParams : CleanParams :=
  { min_dur := CLEAN_MIN_DUR
    min_velocity := CLEAN_MIN_VELOCITY
    merge_gap := CLEAN_MERGE_GAP
    min_pitch := CLEAN_MIN_PITCH
    max_pitch := CLEAN_MAX_PITCH
    legato_gap := CLEAN_LEGATO_GAP }

/-- Squared RMS of analysis frame `i` of `librosa.feature.rms(y=y,
frame_length=2048, hop_length=512)` (`main.py` line 54).  With the default
`center=True, pad_mode="constant"`, librosa pads `y` with `frame_length // 2 =
1024` zeros on each side and takes full 2048-sample frames at hop 512; frame `i`
exists for `0 <= i <= len(y) // 512`, and its RMS is the square root of this
mean of squares.  The square root is irrational in general, so the embedding
works with the squared value throughout; every comparison `rms >= t` of the code
(for the nonnegative thresholds involved) is embedded as `meanSq >= t^2`. -/
def frameMeanSq (y : List ℚ) (i : Nat) : ℚ :=
  let padded := List.replicate 1024 (0 : ℚ) ++ y ++ List.replicate 1024 (0 : ℚ)
  (((padded.drop (512 * i)).take 2048).map fun v => v * v).sum / 2048

/-- The squared values of the RMS frame sequence `rms` of
`apply_loudness_gate` (`main.py` line 54): one frame per hop, `1 + len(y) //
512` frames in total (the last one covering the final partial window). -/
def rmsMeanSq (y : List ℚ) : List ℚ :=
  (List.range (1 + y.length / 512)).map (frameMeanSq y)

/-- Squared values of `rms_expanded = np.repeat(rms, 512)[: len(y)]`
(`main.py` line 55): each frame value repeated over its 512 hop samples,
truncated to the sample count. -/
def rmsExpanded (y : List ℚ) : List ℚ :=
  ((rmsMeanSq y).flatMap fun r => List.replicate 512 r).take y.length

/-- `apply_loudness_gate` (`main.py` lines 52-57) on the decoded mono samples:
`y_gated = np.where(rms_expanded >= rms_threshold, y, 0.0)`.  The comparison
`rms_expanded >= rms_threshold` is embedded on squared values (`frameMeanSq`),
which is equivalent for a nonnegative threshold such as `RMS_THRESHOLD`. -/
def apply_loudness_gate (y : List ℚ) (rms_threshold : ℚ) : List ℚ :=
  List.zipWith (fun r v => if rms_threshold ^ 2 ≤ r then v else 0) (rmsExpanded y) y

/-- Filesystem paths handled by the `/transcribe` request, as an algebra of the
four name shapes the handler constructs or discovers: the persisted upload
`UPLOAD_DIR/{uuid}_{filename}`, the gated audio `..._gated.wav`, a raw MIDI file
`OUTPUT_DIR/{stem}*.mid` found by glob, and the cleaned MIDI `..._clean.mid`.
Distinct shapes are distinct paths (the uuid keeps per-request names apart). -/
inductive FPath where
  | upload (uuid filename : String)
  | gated (uuid filename : String)
  | outMidi (name : String)
  | cleaned (name : String)
deriving DecidableEq, Repr

/-- Environment of one `/transcribe` request: everything the handler's outcome
depends on that the outside world decides.  `gateError` is an exception raised
while persisting the upload or gating the audio (before the subprocess);
`runFails` is the subprocess exiting non-zero (`subprocess.CalledProcessError`
from `check=True`); `stdout`/`stderr` are its captured streams; `matches` the
glob results for `stem + "*.mid"`; `latestIdx` the index of the most recently
modified match (`max(matches, key=os.path.getmtime)`); `cleanError` an exception
raised inside `clean_midi`. -/
structure TEnv where
  uuid : String
  filename : String
  gateError : Option String
  runFails : Bool
  stdout : String
  stderr : String
  «matches» : List String
  latestIdx : Nat
  cleanError : Option String

/-- Value returned by the `/transcribe` handler: either a `FileResponse`
(`main.py` lines 173-177) or a JSON error payload whose optional fields are the
captured process streams (lines 152-157, 179-184, 186-187). -/
inductive TResponse where
  | fileResponse (path : FPath) (media_type filename : String)
  | errorResponse (error : String) (stdout stderr : Option String)
deriving DecidableEq, Repr

/-- Observable outcome of one `/transcribe` request: the response, the
temporary/intermediate files the request created, and the files whose deletion
the `finally` block attempts.  A deletion attempt may fail, but the
`try/except: pass` around `os.remove` swallows the failure, so neither the
response nor the control flow depends on it. -/
structure TOutcome where
  response : TResponse
  created : List FPath
  removed : List FPath
deriving DecidableEq, Repr

/-- The `finally` block of `/transcribe` (`main.py` lines 189-195):
`for p in [input_path, gated_path]: if p and os.path.exists(p): try:
os.remove(p) except: pass`.  Deletion is attempted exactly for the upload and
gated paths that exist (were created). -/
def finallyCleanup (input_path gated_path : FPath) (created : List FPath) :
    List FPath :=
  [input_path, gated_path].filter fun p => decide (p ∈ created)

/-- The `/transcribe` handler (`main.py` lines 111-195) as a function of the
request environment.  Each branch mirrors one exit path of the Python handler:
generic exception before the subprocess, `CalledProcessError`, empty glob,
generic exception in `clean_midi`, and success; the `finally` cleanup runs on
every path. -/
def transcribe (env : TEnv) : TOutcome :=
  let input_path := FPath.upload env.uuid env.filename
  let gated_path := FPath.gated env.uuid env.filename
  match env.gateError with
  | some e =>
      { response := .errorResponse e none none
        created := [input_path]
        removed := finallyCleanup input_path gated_path [input_path] }
  | none =>
      if env.runFails then
        { response := .errorResponse "Basic Pitch failed (CLI error)."
            (some env.stdout) (some env.stderr)
          created := [input_path, gated_path]
          removed := finallyCleanup input_path gated_path [input_path, gated_path] }
      else if env.«matches».isEmpty then
        { response := .errorResponse "No MIDI file produced by Basic Pitch."
            (some env.stdout) (some env.stderr)
          created := [input_path, gated_path]
          removed := finallyCleanup input_path gated_path [input_path, gated_path] }
      else
        let midi_path := FPath.outMidi (env.«matches».getD env.latestIdx "")
        match env.cleanError with
        | some e =>
            { response := .errorResponse e none none
              created := [input_path, gated_path, midi_path]
              removed := finallyCleanup input_path gated_path
                [input_path, gated_path, midi_path] }
        | none =>
            let cleaned_path := FPath.cleaned (env.«matches».getD env.latestIdx "")
            { response := .fileResponse cleaned_path "audio/midi" "transcribed_clean.mid"
              created := [input_path, gated_path, midi_path, cleaned_path]
              removed := finallyCleanup input_path gated_path
                [input_path, gated_path, midi_path, cleaned_path] }

end Main

namespace Evaluate

/-- Hard-filter condition of `evaluate.py`'s `clean_midi` (lines 48-55),
textually identical to the one in `main.py`. -/
def keepProp (p : CleanParams) (n : Note) : Prop :=
  p.min_pitch ≤ n.pitch ∧ n.pitch ≤ p.max_pitch ∧
    p.min_dur ≤ n.«end» - n.start ∧ p.min_velocity ≤ n.velocity

instance : ∀ p n, Decidable (keepProp p n) := fun p n =>
  inferInstanceAs (Decidable (_ ∧ _ ∧ _ ∧ _))

/-- Merge loop of `evaluate.py`'s `clean_midi` (lines 58-69), textually
identical to the one in `main.py`; see `Main.mergeGo`. -/
def mergeGo (merge_gap : ℚ) (cur : Note) : List Note → List Note
  | [] => [cur]
  | n :: rest =>
      if n.pitch = cur.pitch ∧ n.start ≤ cur.«end» + merge_gap then
        mergeGo merge_gap
          { cur with «end» := max cur.«end» n.«end»,
                     velocity := max cur.velocity n.velocity } rest
      else
        cur :: mergeGo merge_gap n rest

/-- Merge pass of `evaluate.py`'s `clean_midi`. -/
def mergePass (merge_gap : ℚ) : List Note → List Note
  | [] => []
  | n :: rest => mergeGo merge_gap n rest

/-- Legato-gap fill of `evaluate.py`'s `clean_midi` (lines 72-78), textually
identical to the one in `main.py`; see `Main.legatoFill`. -/
def legatoFill (legato_gap : ℚ) : List Note → List Note
  | [] => []
  | [a] => [a]
  | a :: b :: rest =>
      (if 0 < b.start - a.«end» ∧ b.start - a.«end» ≤ legato_gap then
        { a with «end» := max a.«end» (b.start - 1/200) }
      else a) :: legatoFill legato_gap (b :: rest)

/-- Per-track body of `evaluate.py`'s `clean_midi` (lines 47-80). -/
def clean_track (p : CleanParams) (notes : List Note) : List Note :=
  legatoFill p.legato_gap
    (List.insertionSort leS
      (mergePass p.merge_gap
        (List.insertionSort lePS
          (notes.filter fun n => decide (keepProp p n)))))

/-- `evaluate.py` line 24: `CLEAN_MIN_DUR = 0.16`. -/
def CLEAN_MIN_DUR : ℚ := 0.16

/-- `evaluate.py` line 25: `CLEAN_MIN_VELOCITY = 28`. -/
def CLEAN_MIN_VELOCITY : Int := 28

/-- `evaluate.py` line 26: `CLEAN_MERGE_GAP = 0.05`. -/
def CLEAN_MERGE_GAP : ℚ := 0.05

/-- `evaluate.py` line 27: `CLEAN_LEGATO_GAP = 0.08`. -/
def CLEAN_LEGATO_GAP : ℚ := 0.08

/-- `evaluate.py` line 28: `CLEAN_MIN_PITCH = 43`. -/
def CLEAN_MIN_PITCH : Int := 43

/-- `evaluate.py` line 29: `CLEAN_MAX_PITCH = 108`. -/
def CLEAN_MAX_PITCH : Int := 108

/-- The thresholds `evaluate.py` passes to its `clean_midi`
(lines 136-145). -/
def evalCleanParams : CleanParams :=
  { min_dur := CLEAN_MIN_DUR
    min_velocity := CLEAN_MIN_VELOCITY
    merge_gap := CLEAN_MERGE_GAP
    min_pitch := CLEAN_MIN_PITCH
    max_pitch := CLEAN_MAX_PITCH
    legato_gap := CLEAN_LEGATO_GAP }

end Evaluate

/-! Invariant layer: separation predicates on note lists, and how each pass of
`clean_midi` establishes or preserves them. -/

/-- Same-pitch separation: a note occurring before `b` in a list leaves a gap of
more than `merge_gap` before `b` whenever the pitches coincide.  After the merge
pass this holds for every ordered pair of the output. -/
def gapQ (merge_gap : ℚ) (a b : Note) : Prop :=
  a.pitch = b.pitch → a.«end» + merge_gap < b.start

/-- Symmetric form of `gapQ`, invariant under permutation of the list. -/
def gapQsym (merge_gap : ℚ) (a b : Note) : Prop :=
  a.pitch = b.pitch → (a.«end» + merge_gap < b.start ∨ b.«end» + merge_gap < a.start)

lemma gapQsym_symmetric (mg : ℚ) : ∀ {a b : Note}, gapQsym mg a b → gapQsym mg b a := by
  intro a b h hp
  exact (h hp.symm).symm

/-- `(pitch, start)` key of a note; the two sort passes and the merge condition
never change it for a retained note, only `end` and `velocity` move. -/
def keyPS (n : Note) : Int × ℚ := (n.pitch, n.start)

/-- `neKey a b` states that `a` and `b` have different `(pitch, start)` keys. -/
def neKey (a b : Note) : Prop := ¬(a.pitch = b.pitch ∧ a.start = b.start)

lemma neKey_symmetric : ∀ {a b : Note}, neKey a b → neKey b a := by
  intro a b h hc
  exact h ⟨hc.1.symm, hc.2.symm⟩

lemma lePS_of_key {a b c : Note} (hp : a.pitch = b.pitch) (hs : a.start = b.start)
    (h : lePS c b) : lePS c a := by
  rcases h with h | ⟨h1, h2⟩
  · exact Or.inl (hp ▸ h)
  · exact Or.inr ⟨hp ▸ h1, hs ▸ h2⟩

lemma lePS_pitch_le {a b : Note} (h : lePS a b) : a.pitch ≤ b.pitch := by
  rcases h with h | ⟨h, _⟩
  · exact le_of_lt h
  · exact le_of_eq h

lemma lePS_start_le_of_pitch {a b : Note} (h : lePS a b) (hp : a.pitch = b.pitch) :
    a.start ≤ b.start := by
  rcases h with h | ⟨_, h2⟩
  · exact absurd hp (ne_of_lt h)
  · exact h2

lemma leSP_start_le {a b : Note} (h : leSP a b) : a.start ≤ b.start := by
  rcases h with h | ⟨h, _⟩
  · exact le_of_lt h
  · exact le_of_eq h

namespace Main

/-- Questions of membership in the merge output: every output note carries the
`(pitch, start)` key of some input note (only `end` and `velocity` are ever
rewritten by the merge). -/
lemma mergeGo_ps_mem (mg : ℚ) :
    ∀ (l : List Note) (cur : Note), ∀ x ∈ mergeGo mg cur l,
      ∃ y ∈ cur :: l, x.pitch = y.pitch ∧ x.start = y.start := by
  intro l
  induction l with
  | nil =>
      intro cur x hx
      simp only [mergeGo, List.mem_singleton] at hx
      exact ⟨cur, List.mem_cons_self _ _, by rw [hx], by rw [hx]⟩
  | cons n rest ih =>
      intro cur x hx
      rw [mergeGo] at hx
      split at hx
      · rcases ih _ x hx with ⟨y, hy, h1, h2⟩
        rcases List.mem_cons.1 hy with rfl | hy
        · exact ⟨cur, List.mem_cons_self _ _, h1, h2⟩
        · exact ⟨y, List.mem_cons_of_mem _ (List.mem_cons_of_mem _ hy), h1, h2⟩
      · rcases List.mem_cons.1 hx with rfl | hx
        · exact ⟨x, List.mem_cons_self _ _, rfl, rfl⟩
        · rcases ih _ x hx with ⟨y, hy, h1, h2⟩
          exact ⟨y, List.mem_cons_of_mem _ hy, h1, h2⟩

/-- The merge pass preserves the hard-filter condition: a merged note keeps its
pitch and start, and its end and velocity only grow. -/
lemma mergeGo_keep (p : CleanParams) (mg : ℚ) :
    ∀ (l : List Note) (cur : Note), keepProp p cur → (∀ n ∈ l, keepProp p n) →
      ∀ x ∈ mergeGo mg cur l, keepProp p x := by
  intro l
  induction l with
  | nil =>
      intro cur hcur _ x hx
      simp only [mergeGo, List.mem_singleton] at hx
      exact hx ▸ hcur
  | cons n rest ih =>
      intro cur hcur hl x hx
      rw [mergeGo] at hx
      split at hx
      · refine ih _ ?_ (fun m hm => hl m (List.mem_cons_of_mem _ hm)) x hx
        obtain ⟨k1, k2, k3, k4⟩ := hcur
        exact ⟨k1, k2, le_trans k3 (by simp only; gcongr; exact le_max_left _ _),
          le_trans k4 (le_max_left _ _)⟩
      · rcases List.mem_cons.1 hx with rfl | hx
        · exact hcur
        · exact ih _ (hl n (List.mem_cons_self _ _))
            (fun m hm => hl m (List.mem_cons_of_mem _ hm)) x hx

/-- The merge pass preserves sortedness by `(pitch, start)`. -/
lemma mergeGo_sorted (mg : ℚ) :
    ∀ (l : List Note) (cur : Note), List.Sorted lePS (cur :: l) →
      List.Sorted lePS (mergeGo mg cur l) := by
  intro l
  induction l with
  | nil =>
      intro cur _
      simp [mergeGo]
  | cons n rest ih =>
      intro cur h
      rw [List.sorted_cons] at h
      obtain ⟨hcur, hrest⟩ := h
      rw [mergeGo]
      split
      · refine ih _ ?_
        rw [List.sorted_cons] at hrest ⊢
        refine ⟨fun b hb => ?_, hrest.2⟩
        exact lePS_of_key rfl rfl (hcur b (List.mem_cons_of_mem _ hb))
      · rw [List.sorted_cons]
        refine ⟨fun b hb => ?_, ih _ hrest⟩
        rcases mergeGo_ps_mem mg rest n b hb with ⟨y, hy, h1, h2⟩
        exact lePS_of_key h1 h2 (hcur y hy)

/-- After the merge pass, every ordered pair of same-pitch output notes is
separated by more than the merge gap: the later one starts strictly after the
earlier one's final end plus `merge_gap`. -/
lemma mergeGo_pairwiseQ (mg : ℚ) :
    ∀ (l : List Note) (cur : Note), List.Sorted lePS (cur :: l) →
      List.Pairwise (gapQ mg) (mergeGo mg cur l) := by
  intro l
  induction l with
  | nil =>
      intro cur _
      simp [mergeGo]
  | cons n rest ih =>
      intro cur h
      have h' := h
      rw [List.sorted_cons] at h'
      obtain ⟨hcur, hrest⟩ := h'
      rw [mergeGo]
      split
      · rename_i hcond
        refine ih _ ?_
        rw [List.sorted_cons] at hrest ⊢
        refine ⟨fun b hb => ?_, hrest.2⟩
        exact lePS_of_key rfl rfl (hcur b (List.mem_cons_of_mem _ hb))
      · rename_i hcond
        rw [List.pairwise_cons]
        refine ⟨fun x hx => ?_, ih _ hrest⟩
        intro hpx
        rcases mergeGo_ps_mem mg rest n x hx with ⟨y, hy, hyp, hys⟩
        by_cases hpn : n.pitch = cur.pitch
        · have hgap : cur.«end» + mg < n.start := by
            by_contra hle
            exact hcond ⟨hpn, le_of_not_lt hle⟩
          have hny : lePS n y := by
            rcases List.mem_cons.1 hy with rfl | hy
            · exact Or.inr ⟨rfl, le_refl _⟩
            · exact (List.sorted_cons.1 hrest).1 y hy
          have : n.start ≤ y.start :=
            lePS_start_le_of_pitch hny (by rw [hyp.symm, ← hpx, hpn])
          rw [hys]
          calc cur.«end» + mg < n.start := hgap
            _ ≤ y.start := this
        · exfalso
          have h1 : cur.pitch < n.pitch :=
            lt_of_le_of_ne (by
              rcases hcur n (List.mem_cons_self _ _) with h | ⟨h, _⟩
              · exact le_of_lt h
              · exact le_of_eq h) (fun he => hpn he.symm)
          have hny : lePS n y := by
            rcases List.mem_cons.1 hy with rfl | hy
            · exact Or.inr ⟨rfl, le_refl _⟩
            · exact (List.sorted_cons.1 hrest).1 y hy
          have h2 : n.pitch ≤ y.pitch := lePS_pitch_le hny
          rw [← hyp, ← hpx] at h2
          exact absurd (lt_of_lt_of_le h1 h2) (lt_irrefl _)

/-- If every ordered pair already satisfies the separation `gapQ`, the merge
pass merges nothing. -/
lemma mergeGo_id (mg : ℚ) :
    ∀ (l : List Note) (cur : Note), List.Pairwise (gapQ mg) (cur :: l) →
      mergeGo mg cur l = cur :: l := by
  intro l
  induction l with
  | nil => intro cur _; rfl
  | cons n rest ih =>
      intro cur h
      rw [List.pairwise_cons] at h
      rw [mergeGo]
      rw [if_neg ?_]
      · rw [ih n h.2]
      · rintro ⟨hp, hs⟩
        exact absurd hs (not_le_of_lt (h.1 n (List.mem_cons_self _ _) hp.symm))

lemma mergePass_ps_mem (mg : ℚ) (l : List Note) :
    ∀ x ∈ mergePass mg l, ∃ y ∈ l, x.pitch = y.pitch ∧ x.start = y.start := by
  cases l with
  | nil => intro x hx; simp [mergePass] at hx
  | cons n rest => exact fun x hx => mergeGo_ps_mem mg rest n x hx

lemma mergePass_keep (p : CleanParams) (mg : ℚ) (l : List Note)
    (h : ∀ n ∈ l, keepProp p n) : ∀ x ∈ mergePass mg l, keepProp p x := by
  cases l with
  | nil => intro x hx; simp [mergePass] at hx
  | cons n rest =>
      exact fun x hx => mergeGo_keep p mg rest n (h n (List.mem_cons_self _ _))
        (fun m hm => h m (List.mem_cons_of_mem _ hm)) x hx

lemma mergePass_sorted (mg : ℚ) (l : List Note) (h : List.Sorted lePS l) :
    List.Sorted lePS (mergePass mg l) := by
  cases l with
  | nil => simp [mergePass]
  | cons n rest => exact mergeGo_sorted mg rest n h

lemma mergePass_pairwiseQ (mg : ℚ) (l : List Note) (h : List.Sorted lePS l) :
    List.Pairwise (gapQ mg) (mergePass mg l) := by
  cases l with
  | nil => simp [mergePass]
  | cons n rest => exact mergeGo_pairwiseQ mg rest n h

lemma mergePass_id (mg : ℚ) (l : List Note) (h : List.Pairwise (gapQ mg) l) :
    mergePass mg l = l := by
  cases l with
  | nil => rfl
  | cons n rest => exact mergeGo_id mg rest n h

/-- The legato fill only rewrites `end` fields: the `(pitch, start)` key
sequence of the list is unchanged. -/
lemma legatoFill_map_ps (lg : ℚ) :
    ∀ l : List Note, (legatoFill lg l).map keyPS = l.map keyPS := by
  intro l
  induction l with
  | nil => rfl
  | cons a t ih =>
      cases t with
      | nil => rfl
      | cons b rest =>
          rw [legatoFill, List.map_cons, ih, List.map_cons]
          congr 1
          split <;> rfl

/-- Every note of the fill output carries the `(pitch, start)` key of the input
note at its position. -/
lemma legatoFill_ps_mem (lg : ℚ) :
    ∀ l : List Note, ∀ x ∈ legatoFill lg l,
      ∃ y ∈ l, x.pitch = y.pitch ∧ x.start = y.start := by
  intro l
  induction l with
  | nil => intro x hx; simp [legatoFill] at hx
  | cons a t ih =>
      cases t with
      | nil =>
          intro x hx
          simp only [legatoFill, List.mem_singleton] at hx
          exact ⟨a, List.mem_cons_self _ _, by rw [hx], by rw [hx]⟩
      | cons b rest =>
          intro x hx
          rw [legatoFill] at hx
          rcases List.mem_cons.1 hx with rfl | hx
          · refine ⟨a, List.mem_cons_self _ _, ?_, ?_⟩ <;> split <;> rfl
          · rcases ih x hx with ⟨y, hy, h1, h2⟩
            exact ⟨y, List.mem_cons_of_mem _ hy, h1, h2⟩

/-- The legato fill never shrinks a note: the output note at each position has
the same pitch, start and velocity as the input note there, and an end that is
at least the input end. -/
lemma legatoFill_forall₂ (lg : ℚ) :
    ∀ l : List Note, List.Forall₂
      (fun a a' => a'.pitch = a.pitch ∧ a'.start = a.start ∧
        a'.velocity = a.velocity ∧ a.«end» ≤ a'.«end») l (legatoFill lg l) := by
  intro l
  induction l with
  | nil => exact List.Forall₂.nil
  | cons a t ih =>
      cases t with
      | nil => exact List.Forall₂.cons ⟨rfl, rfl, rfl, le_refl _⟩ List.Forall₂.nil
      | cons b rest =>
          rw [legatoFill]
          refine List.Forall₂.cons ?_ ih
          split
          · exact ⟨rfl, rfl, rfl, le_max_left _ _⟩
          · exact ⟨rfl, rfl, rfl, le_refl _⟩

/-- The legato fill preserves the hard-filter condition (ends only grow). -/
lemma legatoFill_keep (p : CleanParams) (lg : ℚ) :
    ∀ l : List Note, (∀ n ∈ l, keepProp p n) →
      ∀ x ∈ legatoFill lg l, keepProp p x := by
  intro l
  induction l with
  | nil => intro _ x hx; simp [legatoFill] at hx
  | cons a t ih =>
      cases t with
      | nil =>
          intro h x hx
          simp only [legatoFill, List.mem_singleton] at hx
          exact hx ▸ h a (List.mem_cons_self _ _)
      | cons b rest =>
          intro h x hx
          rw [legatoFill] at hx
          rcases List.mem_cons.1 hx with rfl | hx
          · obtain ⟨k1, k2, k3, k4⟩ := h a (List.mem_cons_self _ _)
            split
            · exact ⟨k1, k2, le_trans k3 (by simp only; gcongr; exact le_max_left _ _), k4⟩
            · exact ⟨k1, k2, k3, k4⟩
          · exact ih (fun n hn => h n (List.mem_cons_of_mem _ hn)) x hx

/-- Head shape of the fill on a nonempty list: the head keeps its pitch and
start. -/
lemma legatoFill_cons_shape (lg : ℚ) (a : Note) (l : List Note) :
    ∃ a' t, legatoFill lg (a :: l) = a' :: t ∧
      a'.pitch = a.pitch ∧ a'.start = a.start := by
  cases l with
  | nil => exact ⟨a, [], rfl, rfl, rfl⟩
  | cons b rest =>
      rw [legatoFill]
      refine ⟨_, _, rfl, ?_, ?_⟩ <;> split <;> rfl

/-- The fill never introduces an overlap: if consecutive notes (in the list
order) do not overlap before the pass, they do not overlap after it, because a
filled end never passes the successor's start. -/
lemma legatoFill_chain'_nonoverlap (lg : ℚ) :
    ∀ l : List Note, List.Chain' (fun a b => a.«end» ≤ b.start) l →
      List.Chain' (fun a b => a.«end» ≤ b.start) (legatoFill lg l) := by
  intro l
  induction l with
  | nil => intro _; simp [legatoFill]
  | cons a t ih =>
      cases t with
      | nil => intro _; simp [legatoFill]
      | cons b rest =>
          intro h
          rw [List.chain'_cons] at h
          obtain ⟨hab, htail⟩ := h
          rw [legatoFill]
          rcases legatoFill_cons_shape lg b rest with ⟨b', t', heq, _, hbs⟩
          rw [heq, List.chain'_cons]
          refine ⟨?_, heq ▸ ih htail⟩
          rw [hbs]
          split
          · exact max_le hab (by linarith)
          · exact hab

/-- The fill preserves the same-pitch separation `gapQ` whenever the merge gap
is below 5 milliseconds: a filled end stops `1/200` before the next start, which
is still more than `merge_gap` before any later note's start. -/
lemma legatoFill_pairwiseQ (lg mg : ℚ) (hmg : mg < 1/200) :
    ∀ l : List Note, List.Sorted leS l → List.Pairwise (gapQ mg) l →
      List.Pairwise (gapQ mg) (legatoFill lg l) := by
  intro l
  induction l with
  | nil => intro _ _; simp [legatoFill]
  | cons a t ih =>
      cases t with
      | nil => intro _ _; simp [legatoFill]
      | cons b rest =>
          intro hs hq
          rw [List.sorted_cons] at hs
          rw [List.pairwise_cons] at hq
          obtain ⟨hsa, hst⟩ := hs
          obtain ⟨hqa, hqt⟩ := hq
          rw [legatoFill, List.pairwise_cons]
          refine ⟨?_, ih hst hqt⟩
          intro x hx
          rcases legatoFill_ps_mem lg _ x hx with ⟨y, hy, hyp, hys⟩
          have hb : b.start ≤ y.start := by
            rcases List.mem_cons.1 hy with rfl | hy
            · exact le_refl _
            · exact (List.sorted_cons.1 hst).1 y hy
          have hqy : gapQ mg a y := hqa y hy
          unfold gapQ
          split
          · intro hpx
            dsimp only at hpx ⊢
            have h1 : a.«end» + mg < y.start := hqy (hpx.trans hyp)
            rw [hys]
            rcases max_cases a.«end» (b.start - 1/200) with ⟨hmax, _⟩ | ⟨hmax, _⟩ <;>
              rw [hmax] <;> linarith
          · intro hpx
            rw [hys]
            exact hqy (hpx.trans hyp)

/-- The legato fill is idempotent: a second pass changes nothing, whatever the
gap threshold. -/
lemma legatoFill_idem (lg : ℚ) :
    ∀ l : List Note, legatoFill lg (legatoFill lg l) = legatoFill lg l := by
  intro l
  induction l with
  | nil => rfl
  | cons a t ih =>
      cases t with
      | nil => rfl
      | cons b rest =>
          rw [legatoFill]
          rcases legatoFill_cons_shape lg b rest with ⟨b', t', heq, _, hbs⟩
          rw [heq] at ih ⊢
          rw [legatoFill, ih, hbs]
          congr 1
          by_cases hcond : 0 < b.start - a.«end» ∧ b.start - a.«end» ≤ lg
          · rw [if_pos hcond]
            simp only
            rcases max_cases a.«end» (b.start - 1/200) with ⟨hmax, hge⟩ | ⟨hmax, hlt⟩
            · rw [hmax]
              rw [if_pos (by simpa using hcond)]
              simp only [hmax]
            · rw [hmax]
              have : b.start - (b.start - 1/200) = 1/200 := by ring
              by_cases hlg : (1:ℚ)/200 ≤ lg
              · rw [if_pos (by rw [this]; exact ⟨by norm_num, hlg⟩)]
                simp [max_self]
              · rw [if_neg (by rw [this]; exact fun hc => hlg hc.2)]
          · rw [if_neg hcond, if_neg hcond]

end Main

/-! Stability of the two sorts, and transfer of the invariants along them. -/

/-- Relation `leSP` expressed on `(pitch, start)` keys. -/
def keyLeSP (x y : Int × ℚ) : Prop := x.2 < y.2 ∨ (x.2 = y.2 ∧ x.1 ≤ y.1)

lemma leSP_iff_keyPS (a b : Note) : leSP a b ↔ keyLeSP (keyPS a) (keyPS b) := Iff.rfl

/-- Sortedness in `leSP` only depends on the `(pitch, start)` key sequence. -/
lemma sorted_leSP_of_map_ps {l l' : List Note}
    (hmap : l.map keyPS = l'.map keyPS) (h : List.Sorted leSP l) :
    List.Sorted leSP l' := by
  have h1 : List.Pairwise keyLeSP (l.map keyPS) :=
    List.pairwise_map.2 (h.imp fun hab => (leSP_iff_keyPS _ _).1 hab)
  rw [hmap] at h1
  exact (List.pairwise_map.1 h1).imp fun hab => (leSP_iff_keyPS _ _).2 hab

/-- Inserting `a` by start-time comparison into a `leSP`-sorted list keeps it
`leSP`-sorted, provided `a` is `lePS`-below everything in the list.  This is the
stability argument: among equal start times the pitch order installed by the
first sort survives the second. -/
lemma orderedInsert_leS_sorted_leSP {a : Note} :
    ∀ {L : List Note}, List.Sorted leSP L → (∀ x ∈ L, lePS a x) →
      List.Sorted leSP (List.orderedInsert leS a L) := by
  intro L
  induction L with
  | nil => intro _ _; simp [List.orderedInsert]
  | cons y R ih =>
      intro hL ha
      rw [List.sorted_cons] at hL
      obtain ⟨hy, hR⟩ := hL
      rw [List.orderedInsert]
      split
      · rename_i hle
        rw [List.sorted_cons]
        refine ⟨fun z hz => ?_, List.sorted_cons.2 ⟨hy, hR⟩⟩
        have hyz : y.start ≤ z.start := by
          rcases List.mem_cons.1 hz with rfl | hz
          · exact le_refl _
          · exact leSP_start_le (hy z hz)
        have haz : a.start ≤ z.start := le_trans hle hyz
        rcases lt_or_eq_of_le haz with h | h
        · exact Or.inl h
        · exact Or.inr ⟨h, lePS_pitch_le (ha z hz)⟩
      · rename_i hgt
        have hya : y.start < a.start := lt_of_not_le hgt
        rw [List.sorted_cons]
        refine ⟨fun z hz => ?_, ih hR fun x hx => ha x (List.mem_cons_of_mem _ hx)⟩
        rcases (List.mem_orderedInsert leS).1 hz with rfl | hz
        · exact Or.inl hya
        · exact hy z hz

/-- Stability of the second sort: the start-time insertion sort of a
`(pitch, start)`-sorted list is sorted in the joint `(start, pitch)` order. -/
lemma insertionSort_leS_sorted_leSP :
    ∀ {l : List Note}, List.Sorted lePS l →
      List.Sorted leSP (List.insertionSort leS l) := by
  intro l
  induction l with
  | nil => intro _; simp
  | cons a t ih =>
      intro h
      rw [List.sorted_cons] at h
      rw [List.insertionSort]
      exact orderedInsert_leS_sorted_leSP (ih h.2)
        (fun x hx => h.1 x ((List.mem_insertionSort leS).1 hx))

/-- Upgrade to the strict joint order when all `(pitch, start)` keys differ. -/
lemma sorted_ltSP_of_leSP {l : List Note} (h1 : List.Sorted leSP l)
    (h2 : List.Pairwise neKey l) : List.Sorted ltSP l := by
  refine (h1.and h2).imp ?_
  rintro a b ⟨hab, hne⟩
  rcases hab with h | ⟨hs, hp⟩
  · exact Or.inl h
  · refine Or.inr ⟨hs, lt_of_le_of_ne hp fun he => hne ⟨he, hs⟩⟩

/-- Distinctness of `(pitch, start)` keys follows from the same-pitch
separation `gapQ` once notes have positive duration and the merge gap is
nonnegative: a same-pitch successor starts strictly later. -/
lemma pairwise_neKey_of_gapQ {p : CleanParams} {mg : ℚ} {l : List Note}
    (hmd : 0 < p.min_dur) (hmg : 0 ≤ mg)
    (hkeep : ∀ x ∈ l, Main.keepProp p x) (hq : List.Pairwise (gapQ mg) l) :
    List.Pairwise neKey l := by
  refine hq.imp_of_mem ?_
  intro a b ha _ hab
  rintro ⟨hp, hs⟩
  have h1 : a.«end» + mg < b.start := hab hp
  have h2 : p.min_dur ≤ a.«end» - a.start := (hkeep a ha).2.2.1
  rw [← hs] at h1
  linarith

/-- A pairwise start-time-compatible order plus the symmetric separation yields
the directed separation: the reversed alternative would force a note to end
before it starts. -/
lemma pairwise_gapQ_of_sym {p : CleanParams} {mg : ℚ} {l : List Note}
    (hmd : 0 < p.min_dur) (hmg : 0 ≤ mg)
    (hkeep : ∀ x ∈ l, Main.keepProp p x)
    (hst : List.Pairwise (fun a b => a.pitch = b.pitch → a.start ≤ b.start) l)
    (hsym : List.Pairwise (gapQsym mg) l) : List.Pairwise (gapQ mg) l := by
  refine (hst.and hsym).imp_of_mem ?_
  rintro a b _ hb ⟨h1, h2⟩ hp
  rcases h2 hp with h | h
  · exact h
  · exfalso
    have h3 : a.start ≤ b.start := h1 hp
    have h4 : p.min_dur ≤ b.«end» - b.start := (hkeep b hb).2.2.1
    linarith

lemma pairwise_startle_of_sorted_leS {l : List Note} (h : List.Sorted leS l) :
    List.Pairwise (fun a b => a.pitch = b.pitch → a.start ≤ b.start) l := by
  refine h.imp ?_
  intro a b hab _
  exact hab

lemma pairwise_startle_of_sorted_lePS {l : List Note} (h : List.Sorted lePS l) :
    List.Pairwise (fun a b => a.pitch = b.pitch → a.start ≤ b.start) l :=
  h.imp fun hab hp => lePS_start_le_of_pitch hab hp

namespace Main

/-- Every note of the cleanup output passes the hard filter: pitch within the
inclusive bounds, duration at least `min_dur`, velocity at least
`min_velocity`.  The merge pass and the legato fill only ever grow a retained
note's end and velocity. -/
lemma clean_track_keep (p : CleanParams) (l : List Note) :
    ∀ x ∈ clean_track p l, keepProp p x := by
  intro x hx
  unfold clean_track at hx
  refine legatoFill_keep p _ _ ?_ x hx
  intro n hn
  rw [List.mem_insertionSort] at hn
  refine mergePass_keep p _ _ ?_ n hn
  intro m hm
  rw [List.mem_insertionSort, List.mem_filter, decide_eq_true_eq] at hm
  exact hm.2

/-- The cleanup output is sorted in the joint `(start, pitch)` order: the final
start-time sort is stable, so equal start times stay in the pitch order
installed by the merge pass, and the fill does not move notes. -/
lemma clean_track_sorted_leSP (p : CleanParams) (l : List Note) :
    List.Sorted leSP (clean_track p l) := by
  unfold clean_track
  refine sorted_leSP_of_map_ps (legatoFill_map_ps _ _).symm ?_
  exact insertionSort_leS_sorted_leSP
    (mergePass_sorted _ _ (List.sorted_insertionSort lePS _))

/-- With a positive minimum duration and a merge gap in `[0, 1/200)`, every
ordered pair of same-pitch notes in the cleanup output is separated by more
than the merge gap (a legato-filled end stops `1/200` short of the next
start). -/
lemma clean_track_pairwiseQ (p : CleanParams) (l : List Note)
    (hmd : 0 < p.min_dur) (hmg0 : 0 ≤ p.merge_gap) (hmg : p.merge_gap < 1/200) :
    List.Pairwise (gapQ p.merge_gap) (clean_track p l) := by
  unfold clean_track
  set f := (l.filter fun n => decide (keepProp p n)) with hf
  have hkeepf : ∀ x ∈ f, keepProp p x := by
    intro x hx
    rw [hf, List.mem_filter, decide_eq_true_eq] at hx
    exact hx.2
  have hsort1 : List.Sorted lePS (List.insertionSort lePS f) :=
    List.sorted_insertionSort lePS f
  have hqm : List.Pairwise (gapQ p.merge_gap) (mergePass p.merge_gap (List.insertionSort lePS f)) :=
    mergePass_pairwiseQ _ _ hsort1
  have hkeepm : ∀ x ∈ mergePass p.merge_gap (List.insertionSort lePS f), keepProp p x := by
    intro x hx
    refine mergePass_keep p _ _ ?_ x hx
    intro m hm
    exact hkeepf m ((List.mem_insertionSort lePS).1 hm)
  have hperm : List.Perm
      (List.insertionSort leS (mergePass p.merge_gap (List.insertionSort lePS f)))
      (mergePass p.merge_gap (List.insertionSort lePS f)) :=
    List.perm_insertionSort leS _
  have hsym : List.Pairwise (gapQsym p.merge_gap)
      (List.insertionSort leS (mergePass p.merge_gap (List.insertionSort lePS f))) :=
    (hperm.pairwise_iff (gapQsym_symmetric _)).2 (hqm.imp fun hab hp => Or.inl (hab hp))
  have hkeeps : ∀ x ∈ List.insertionSort leS (mergePass p.merge_gap (List.insertionSort lePS f)),
      keepProp p x := fun x hx => hkeepm x (hperm.mem_iff.1 hx)
  have hq2 : List.Pairwise (gapQ p.merge_gap)
      (List.insertionSort leS (mergePass p.merge_gap (List.insertionSort lePS f))) :=
    pairwise_gapQ_of_sym hmd hmg0 hkeeps
      (pairwise_startle_of_sorted_leS (List.sorted_insertionSort leS _)) hsym
  exact legatoFill_pairwiseQ _ _ hmg _ (List.sorted_insertionSort leS _) hq2

/-- The cleanup output absorbs a second fill: the fill is idempotent. -/
lemma clean_track_fill_fixed (p : CleanParams) (l : List Note) :
    legatoFill p.legato_gap (clean_track p l) = clean_track p l := by
  unfold clean_track
  exact legatoFill_idem _ _

/-- Abstract fixed-point lemma: a list that passes the hard filter, satisfies
the same-pitch separation, is sorted in the joint `(start, pitch)` order and is
stable under the fill, is a fixed point of the whole cleanup, provided the
merge gap lies in `[0, 1/200)` and the minimum duration is positive. -/
lemma clean_track_fixed (p : CleanParams) (w : List Note)
    (hmd : 0 < p.min_dur) (hmg0 : 0 ≤ p.merge_gap) (hmg : p.merge_gap < 1/200)
    (hkeep : ∀ x ∈ w, keepProp p x)
    (hq : List.Pairwise (gapQ p.merge_gap) w)
    (hsorted : List.Sorted leSP w)
    (hfill : legatoFill p.legato_gap w = w) :
    clean_track p w = w := by
  unfold clean_track
  have hfilter : (w.filter fun n => decide (keepProp p n)) = w :=
    List.filter_eq_self.2 fun a ha => decide_eq_true (hkeep a ha)
  rw [hfilter]
  have hperm1 : List.Perm (List.insertionSort lePS w) w := List.perm_insertionSort lePS w
  have hs1 : List.Sorted lePS (List.insertionSort lePS w) :=
    List.sorted_insertionSort lePS w
  have hkeep1 : ∀ x ∈ List.insertionSort lePS w, keepProp p x :=
    fun x hx => hkeep x (hperm1.mem_iff.1 hx)
  have hsym1 : List.Pairwise (gapQsym p.merge_gap) (List.insertionSort lePS w) :=
    (hperm1.pairwise_iff (gapQsym_symmetric _)).2 (hq.imp fun hab hp => Or.inl (hab hp))
  have hq1 : List.Pairwise (gapQ p.merge_gap) (List.insertionSort lePS w) :=
    pairwise_gapQ_of_sym hmd hmg0 hkeep1 (pairwise_startle_of_sorted_lePS hs1) hsym1
  rw [mergePass_id _ _ hq1]
  have hne : List.Pairwise neKey w := pairwise_neKey_of_gapQ hmd hmg0 hkeep hq
  have hperm2 : List.Perm (List.insertionSort leS (List.insertionSort lePS w)) w :=
    (List.perm_insertionSort leS _).trans hperm1
  have hs2 : List.Sorted ltSP (List.insertionSort leS (List.insertionSort lePS w)) :=
    sorted_ltSP_of_leSP (insertionSort_leS_sorted_leSP hs1)
      ((hperm2.pairwise_iff neKey_symmetric).2 hne)
  have hw : List.Sorted ltSP w := sorted_ltSP_of_leSP hsorted hne
  rw [List.eq_of_perm_of_sorted hperm2 hs2 hw]
  exact hfill

/-- A single note that passes the hard filter travels through the cleanup
unchanged. -/
lemma clean_track_singleton (p : CleanParams) (n : Note) (h : keepProp p n) :
    clean_track p [n] = [n] := by
  unfold clean_track
  have hd : decide (keepProp p n) = true := decide_eq_true h
  simp only [List.filter_cons, hd, if_true, List.filter_nil]
  rfl

/-- `np.repeat(rms, 512)[: len(y)]` has exactly `len(y)` entries: the repeated
frame values cover `512 * (1 + len(y) // 512) ≥ len(y)` samples before the
truncation. -/
lemma rmsExpanded_length (y : List ℚ) : (rmsExpanded y).length = y.length := by
  unfold rmsExpanded
  rw [List.length_take]
  refine min_eq_left ?_
  rw [List.length_flatMap]
  have h1 : ∀ L : List ℚ, List.map (List.length ∘ fun r : ℚ => List.replicate 512 r) L =
      List.replicate L.length 512 := by
    intro L
    induction L with
    | nil => rfl
    | cons a t ih =>
        have hh : (List.length ∘ fun r : ℚ => List.replicate 512 r) a = 512 := by
          rw [Function.comp_apply, List.length_replicate]
        rw [List.map_cons, hh, ih, List.length_cons, List.replicate_succ]
  rw [h1, List.sum_replicate, smul_eq_mul]
  have h2 : (rmsMeanSq y).length = 1 + y.length / 512 := by
    unfold rmsMeanSq
    rw [List.length_map, List.length_range]
  rw [h2]
  omega

/-- Mean square of the single analysis frame of the one-sample signal
`[1/100]`: the frame is 1024 padding zeros, the sample, then 1023 padding
zeros. -/
lemma frameMeanSq_single : frameMeanSq [1/100] 0 = 1/20480000 := by
  unfold frameMeanSq
  dsimp only
  rw [List.drop_zero]
  rw [List.take_append_eq_append_take, List.take_append_eq_append_take]
  simp only [List.take_replicate, List.length_replicate, List.length_cons,
    List.length_nil, List.map_append, List.map_replicate, List.sum_append,
    List.sum_replicate, List.map_cons, List.map_nil, List.sum_cons, List.sum_nil,
    List.length_take, List.take_cons, List.take_nil, smul_eq_mul]
  norm_num

/-- The expanded squared-RMS sequence of the one-sample signal `[1/100]`. -/
lemma rmsExpanded_single : rmsExpanded [1/100] = [1/20480000] := by
  have h : rmsMeanSq [1/100] = [1/20480000] := by
    norm_num [rmsMeanSq, List.range_succ, frameMeanSq_single]
  rw [rmsExpanded, h]
  rfl

end Main

/-! Extensional agreement of the two `clean_midi` copies. -/

lemma evaluate_mergeGo_eq (mg : ℚ) :
    ∀ (l : List Note) (cur : Note), Evaluate.mergeGo mg cur l = Main.mergeGo mg cur l := by
  intro l
  induction l with
  | nil => intro cur; rfl
  | cons n rest ih =>
      intro cur
      rw [Evaluate.mergeGo, Main.mergeGo]
      by_cases hc : n.pitch = cur.pitch ∧ n.start ≤ cur.«end» + mg
      · rw [if_pos hc, if_pos hc, ih]
      · rw [if_neg hc, if_neg hc, ih]

lemma evaluate_mergePass_eq (mg : ℚ) (l : List Note) :
    Evaluate.mergePass mg l = Main.mergePass mg l := by
  cases l with
  | nil => rfl
  | cons n rest => exact evaluate_mergeGo_eq mg rest n

lemma evaluate_legatoFill_eq (lg : ℚ) :
    ∀ l : List Note, Evaluate.legatoFill lg l = Main.legatoFill lg l := by
  intro l
  induction l with
  | nil => rfl
  | cons a t ih =>
      cases t with
      | nil => rfl
      | cons b rest =>
          rw [Evaluate.legatoFill, Main.legatoFill, ih]

lemma evaluate_clean_track_eq (p : CleanParams) (l : List Note) :
    Evaluate.clean_track p l = Main.clean_track p l := by
  unfold Evaluate.clean_track Main.clean_track
  rw [evaluate_legatoFill_eq]
  have hf : (l.filter fun n => decide (Evaluate.keepProp p n)) =
      (l.filter fun n => decide (Main.keepProp p n)) := rfl
  rw [hf, evaluate_mergePass_eq]

/-! The claims. -/

/-- C1 (amended): the legato-gap fill never introduces an overlap.  If the
note list entering the fill (the merge pass's output re-sorted by start time)
has no overlap between consecutive notes, then after `clean_midi` no two
adjacent-by-start retained notes of a track overlap: `a.end ≤ b.start`.  (The
original claim, that this holds for every input, fails: two overlapping notes
of different pitch pass through the cleanup untouched, see the
counterexample.) -/
theorem C1_legato_fill_never_creates_overlap (p : CleanParams) (l : List Note)
    (h : List.Chain' (fun a b => a.«end» ≤ b.start)
      (List.insertionSort leS
        (Main.mergePass p.merge_gap
          (List.insertionSort lePS (l.filter fun n => decide (Main.keepProp p n)))))) :
    List.Chain' (fun a b => a.«end» ≤ b.start) (Main.clean_track p l) := by
  unfold Main.clean_track
  exact Main.legatoFill_chain'_nonoverlap p.legato_gap _ h

/-- C1 counterexample: with the service thresholds, a track holding the chord
notes `(pitch 60, 0–1 s)` and `(pitch 62, 0.5–1.5 s)` comes out of the cleanup
unchanged and in start order, and its two adjacent notes overlap:
`a.end = 1 > 1/2 = b.start`. -/
theorem C1_overlap_counterexample :
    ¬ List.Chain' (fun a b => a.«end» ≤ b.start)
      (Main.clean_track Main.transcribeCleanParams
        [⟨60, 0, 1, 100⟩, ⟨62, 1/2, 3/2, 100⟩]) := by
  have h : Main.clean_track Main.transcribeCleanParams
      [⟨60, 0, 1, 100⟩, ⟨62, 1/2, 3/2, 100⟩] =
      [⟨60, 0, 1, 100⟩, ⟨62, 1/2, 3/2, 100⟩] := by
    norm_num [Main.clean_track, Main.keepProp, Main.transcribeCleanParams,
      Main.CLEAN_MIN_DUR, Main.CLEAN_MIN_VELOCITY, Main.CLEAN_MERGE_GAP,
      Main.CLEAN_MIN_PITCH, Main.CLEAN_MAX_PITCH, Main.CLEAN_LEGATO_GAP,
      List.insertionSort, List.orderedInsert, Main.mergePass, Main.mergeGo,
      Main.legatoFill, lePS, leS, List.filter]
  rw [h]
  intro hc
  rw [List.chain'_cons] at hc
  have h1 := hc.1
  norm_num at h1

/-- C1 witness: two separated notes (gap 1 s) satisfy the premise, and the
cleanup output for them is overlap-free. -/
theorem C1_no_overlap_witness :
    List.Chain' (fun a b => a.«end» ≤ b.start)
      (Main.clean_track Main.transcribeCleanParams
        [⟨60, 0, 1, 100⟩, ⟨62, 2, 3, 100⟩]) := by
  refine C1_legato_fill_never_creates_overlap _ _ ?_
  have h : List.insertionSort leS
      (Main.mergePass Main.transcribeCleanParams.merge_gap
        (List.insertionSort lePS ([⟨60, 0, 1, 100⟩, ⟨62, 2, 3, 100⟩].filter fun n =>
          decide (Main.keepProp Main.transcribeCleanParams n)))) =
      [⟨60, 0, 1, 100⟩, ⟨62, 2, 3, 100⟩] := by
    norm_num [Main.keepProp, Main.transcribeCleanParams,
      Main.CLEAN_MIN_DUR, Main.CLEAN_MIN_VELOCITY, Main.CLEAN_MERGE_GAP,
      Main.CLEAN_MIN_PITCH, Main.CLEAN_MAX_PITCH, Main.CLEAN_LEGATO_GAP,
      List.insertionSort, List.orderedInsert, Main.mergePass, Main.mergeGo,
      lePS, leS, List.filter]
  rw [h]
  simp only [List.chain'_cons, List.chain'_singleton, and_true]
  norm_num

/-- C2 (amended): with a positive minimum duration, a nonnegative merge gap,
and a merge gap below the 5 ms legato safety margin (`1/200` s), `clean_midi`
is idempotent per track: a second run with the same thresholds on its own
output changes nothing.  (The original unconditional claim fails: with
`merge_gap ≥ 5 ms` the legato fill can close a same-pitch gap to below the
merge gap, and a second run merges further, see the counterexample.) -/
theorem C2_cleanup_idempotent_below_5ms_merge_gap (p : CleanParams) (l : List Note)
    (hmd : 0 < p.min_dur) (hmg0 : 0 ≤ p.merge_gap) (hmg : p.merge_gap < 1/200) :
    Main.clean_track p (Main.clean_track p l) = Main.clean_track p l :=
  Main.clean_track_fixed p (Main.clean_track p l) hmd hmg0 hmg
    (Main.clean_track_keep p l) (Main.clean_track_pairwiseQ p l hmd hmg0 hmg)
    (Main.clean_track_sorted_leSP p l) (Main.clean_track_fill_fixed p l)

/-- C2 counterexample: thresholds `min_dur = 1/100`, `min_velocity = 0`,
`merge_gap = 1/20`, pitch bounds `[0, 127]`, `legato_gap = 2/25`.  On the track
`(60, 0–0.2)`, `(62, 0.26–0.29)`, `(60, 0.3–0.5)` the first run legato-fills
the first note's end to `0.255`, bringing it within the merge gap of the third
note's start `0.3`; the second run therefore merges the two pitch-60 notes, so
the first run's output is not a fixed point. -/
theorem C2_idempotence_counterexample :
    Main.clean_track ⟨1/100, 0, 1/20, 0, 127, 2/25⟩
        (Main.clean_track ⟨1/100, 0, 1/20, 0, 127, 2/25⟩
          [⟨60, 0, 1/5, 80⟩, ⟨62, 13/50, 29/100, 80⟩, ⟨60, 3/10, 1/2, 80⟩]) ≠
      Main.clean_track ⟨1/100, 0, 1/20, 0, 127, 2/25⟩
        [⟨60, 0, 1/5, 80⟩, ⟨62, 13/50, 29/100, 80⟩, ⟨60, 3/10, 1/2, 80⟩] := by
  have h1 : Main.clean_track ⟨1/100, 0, 1/20, 0, 127, 2/25⟩
      [⟨60, 0, 1/5, 80⟩, ⟨62, 13/50, 29/100, 80⟩, ⟨60, 3/10, 1/2, 80⟩] =
      [⟨60, 0, 51/200, 80⟩, ⟨62, 13/50, 59/200, 80⟩, ⟨60, 3/10, 1/2, 80⟩] := by
    norm_num [Main.clean_track, Main.keepProp, List.insertionSort,
      List.orderedInsert, Main.mergePass, Main.mergeGo, Main.legatoFill,
      lePS, leS, List.filter]
  have h2 : Main.clean_track ⟨1/100, 0, 1/20, 0, 127, 2/25⟩
      [⟨60, 0, 51/200, 80⟩, ⟨62, 13/50, 59/200, 80⟩, ⟨60, 3/10, 1/2, 80⟩] =
      [⟨60, 0, 1/2, 80⟩, ⟨62, 13/50, 59/200, 80⟩] := by
    norm_num [Main.clean_track, Main.keepProp, List.insertionSort,
      List.orderedInsert, Main.mergePass, Main.mergeGo, Main.legatoFill,
      lePS, leS, List.filter]
  rw [h1, h2]
  simp

/-- C2 witness: the hypotheses hold at `min_dur = 4/25`, `merge_gap = 1/250`
(below 5 ms), and the cleanup of a one-note track is a fixed point. -/
theorem C2_idempotence_witness :
    (0:ℚ) < 4/25 ∧ (0:ℚ) ≤ 1/250 ∧ (1/250:ℚ) < 1/200 ∧
    Main.clean_track ⟨4/25, 28, 1/250, 43, 80, 2/25⟩
        (Main.clean_track ⟨4/25, 28, 1/250, 43, 80, 2/25⟩ [⟨60, 0, 1, 100⟩]) =
      Main.clean_track ⟨4/25, 28, 1/250, 43, 80, 2/25⟩ [⟨60, 0, 1, 100⟩] :=
  ⟨by norm_num, by norm_num, by norm_num,
    C2_cleanup_idempotent_below_5ms_merge_gap ⟨4/25, 28, 1/250, 43, 80, 2/25⟩
      [⟨60, 0, 1, 100⟩] (by norm_num) (by norm_num) (by norm_num)⟩

/-- C5: a note event whose pitch lies outside `[min_pitch, max_pitch]`, or
whose duration is below `min_dur`, or whose velocity is below `min_velocity`,
is absent from the cleanup output of every track under every threshold
configuration. -/
theorem C5_hard_filtered_notes_absent (p : CleanParams) (l : List Note) (n : Note)
    (h : n.pitch < p.min_pitch ∨ p.max_pitch < n.pitch ∨
      n.«end» - n.start < p.min_dur ∨ n.velocity < p.min_velocity) :
    n ∉ Main.clean_track p l := by
  intro hn
  obtain ⟨k1, k2, k3, k4⟩ := Main.clean_track_keep p l n hn
  rcases h with h | h | h | h
  · exact absurd k1 (not_le_of_lt h)
  · exact absurd k2 (not_le_of_lt h)
  · exact absurd k3 (not_le_of_lt h)
  · exact absurd k4 (not_le_of_lt h)

/-- C5 witness: pitch 90 lies above the service's `CLEAN_MAX_PITCH = 80`, so a
pitch-90 note is absent from the cleanup of a track holding (only) it. -/
theorem C5_absence_witness :
    Main.transcribeCleanParams.max_pitch < (90:Int) ∧
    (⟨90, 0, 1, 100⟩ : Note) ∉
      Main.clean_track Main.transcribeCleanParams [⟨90, 0, 1, 100⟩] :=
  ⟨by norm_num [Main.transcribeCleanParams, Main.CLEAN_MAX_PITCH],
    C5_hard_filtered_notes_absent _ _ _
      (Or.inr (Or.inl (by norm_num [Main.transcribeCleanParams, Main.CLEAN_MAX_PITCH])))⟩

/-- C6: two same-pitch notes consecutive in the `(pitch, start)` order merge
exactly when the second starts no later than the first's end plus the merge
gap; the merged note spans `[start1, max(end1, end2)]` with velocity
`max(v1, v2)`, and otherwise both notes survive unchanged. -/
theorem C6_merge_pass_rule (mg : ℚ) (n1 n2 : Note) (hp : n2.pitch = n1.pitch)
    (hs : n1.start ≤ n2.start) :
    (n2.start ≤ n1.«end» + mg →
      Main.mergePass mg [n1, n2] =
        [⟨n1.pitch, n1.start, max n1.«end» n2.«end», max n1.velocity n2.velocity⟩]) ∧
    (n1.«end» + mg < n2.start → Main.mergePass mg [n1, n2] = [n1, n2]) := by
  constructor
  · intro h
    show Main.mergeGo mg n1 [n2] = _
    rw [Main.mergeGo, if_pos ⟨hp, h⟩, Main.mergeGo]
  · intro h
    show Main.mergeGo mg n1 [n2] = _
    rw [Main.mergeGo, if_neg (fun hc => absurd hc.2 (not_le_of_lt h)), Main.mergeGo]

/-- C6 witness: at merge gap `1/20`, pitch-60 notes `0–1/2` and `13/25–1`
(gap `1/50`) merge into one note `0–1` with the larger velocity, while
`0–1/2` and `7/10–1` (gap `1/5`) stay distinct. -/
theorem C6_merge_witness :
    Main.mergePass (1/20) [⟨60, 0, 1/2, 80⟩, ⟨60, 13/25, 1, 90⟩] =
      [⟨60, 0, max (1/2 : ℚ) 1, max (80 : Int) 90⟩] ∧
    Main.mergePass (1/20) [⟨60, 0, 1/2, 80⟩, ⟨60, 7/10, 1, 90⟩] =
      [⟨60, 0, 1/2, 80⟩, ⟨60, 7/10, 1, 90⟩] :=
  ⟨(C6_merge_pass_rule (1/20) ⟨60, 0, 1/2, 80⟩ ⟨60, 13/25, 1, 90⟩ rfl
      (by norm_num)).1 (by norm_num),
   (C6_merge_pass_rule (1/20) ⟨60, 0, 1/2, 80⟩ ⟨60, 7/10, 1, 90⟩ rfl
      (by norm_num)).2 (by norm_num)⟩

/-- C7: with a positive minimum duration, every note retained by the cleanup
satisfies the data-model invariant: `start < end`, pitch within the inclusive
configured bounds, and velocity at least the configured minimum. -/
theorem C7_cleanup_output_invariant (p : CleanParams) (l : List Note)
    (hmd : 0 < p.min_dur) :
    ∀ n ∈ Main.clean_track p l, n.start < n.«end» ∧
      p.min_pitch ≤ n.pitch ∧ n.pitch ≤ p.max_pitch ∧ p.min_velocity ≤ n.velocity := by
  intro n hn
  obtain ⟨k1, k2, k3, k4⟩ := Main.clean_track_keep p l n hn
  exact ⟨by linarith, k1, k2, k4⟩

/-- C7 witness: the service's `min_dur = 0.16` is positive, and the invariant
holds for the note `(60, 0–1, 100)`, which the cleanup of its one-note track
retains. -/
theorem C7_invariant_witness :
    (0:ℚ) < Main.transcribeCleanParams.min_dur ∧
    ((⟨60, 0, 1, 100⟩ : Note).start < (⟨60, 0, 1, 100⟩ : Note).«end» ∧
      Main.transcribeCleanParams.min_pitch ≤ (⟨60, 0, 1, 100⟩ : Note).pitch ∧
      (⟨60, 0, 1, 100⟩ : Note).pitch ≤ Main.transcribeCleanParams.max_pitch ∧
      Main.transcribeCleanParams.min_velocity ≤ (⟨60, 0, 1, 100⟩ : Note).velocity) := by
  have hk : Main.keepProp Main.transcribeCleanParams ⟨60, 0, 1, 100⟩ := by
    norm_num [Main.keepProp, Main.transcribeCleanParams, Main.CLEAN_MIN_DUR,
      Main.CLEAN_MIN_VELOCITY, Main.CLEAN_MIN_PITCH, Main.CLEAN_MAX_PITCH]
  refine ⟨by norm_num [Main.transcribeCleanParams, Main.CLEAN_MIN_DUR], ?_⟩
  refine C7_cleanup_output_invariant Main.transcribeCleanParams [⟨60, 0, 1, 100⟩]
    (by norm_num [Main.transcribeCleanParams, Main.CLEAN_MIN_DUR]) _ ?_
  rw [Main.clean_track_singleton _ _ hk]
  exact List.mem_singleton_self _

/-- C10: the note list `clean_midi` writes back into an instrument track is
sorted by start time in ascending order (the final pass sorts by start and the
legato fill does not reorder). -/
theorem C10_cleanup_sorted_by_start (p : CleanParams) (notes : List Note) :
    List.Sorted leS (Main.clean_track p notes) :=
  (Main.clean_track_sorted_leSP p notes).imp fun hab => leSP_start_le hab

/-- C3 (amended): `evaluate.py`'s `clean_midi` is extensionally equal to
`main.py`'s, and five of the six threshold constants it passes (minimum
duration, minimum velocity, merge gap, legato gap, minimum pitch) equal the
service's; the maximum pitch differs: 108 in the evaluation script against 80
in the service.  (The original claim of all six being equal fails, see the
counterexample.) -/
theorem C3_cleanup_agreement_except_max_pitch :
    (∀ (p : CleanParams) (l : List Note),
      Evaluate.clean_track p l = Main.clean_track p l) ∧
    Evaluate.CLEAN_MIN_DUR = Main.CLEAN_MIN_DUR ∧
    Evaluate.CLEAN_MIN_VELOCITY = Main.CLEAN_MIN_VELOCITY ∧
    Evaluate.CLEAN_MERGE_GAP = Main.CLEAN_MERGE_GAP ∧
    Evaluate.CLEAN_LEGATO_GAP = Main.CLEAN_LEGATO_GAP ∧
    Evaluate.CLEAN_MIN_PITCH = Main.CLEAN_MIN_PITCH ∧
    Evaluate.CLEAN_MAX_PITCH = 108 ∧ Main.CLEAN_MAX_PITCH = 80 :=
  ⟨evaluate_clean_track_eq, rfl, rfl, rfl, rfl, rfl, rfl, rfl⟩

/-- C3 counterexample: the two `CLEAN_MAX_PITCH` constants differ (108 in
`evaluate.py`, 80 in `main.py`), and on the concrete pitch-90 note the two
configured cleanups disagree: the evaluation harness keeps it, the service's
cleanup drops it. -/
theorem C3_thresholds_counterexample :
    Evaluate.CLEAN_MAX_PITCH ≠ Main.CLEAN_MAX_PITCH ∧
    Evaluate.clean_track Evaluate.evalCleanParams [⟨90, 0, 1, 100⟩] ≠
      Main.clean_track Main.transcribeCleanParams [⟨90, 0, 1, 100⟩] := by
  constructor
  · norm_num [Evaluate.CLEAN_MAX_PITCH, Main.CLEAN_MAX_PITCH]
  · have h1 : Evaluate.clean_track Evaluate.evalCleanParams [⟨90, 0, 1, 100⟩] =
        [⟨90, 0, 1, 100⟩] := by
      rw [evaluate_clean_track_eq]
      refine Main.clean_track_singleton _ _ ?_
      norm_num [Main.keepProp, Evaluate.evalCleanParams, Evaluate.CLEAN_MIN_DUR,
        Evaluate.CLEAN_MIN_VELOCITY, Evaluate.CLEAN_MIN_PITCH, Evaluate.CLEAN_MAX_PITCH]
    have h2 : Main.clean_track Main.transcribeCleanParams [⟨90, 0, 1, 100⟩] = [] := by
      norm_num [Main.clean_track, Main.keepProp, Main.transcribeCleanParams,
        Main.CLEAN_MIN_DUR, Main.CLEAN_MIN_VELOCITY, Main.CLEAN_MERGE_GAP,
        Main.CLEAN_MIN_PITCH, Main.CLEAN_MAX_PITCH, Main.CLEAN_LEGATO_GAP,
        List.insertionSort, List.orderedInsert, Main.mergePass, Main.mergeGo,
        Main.legatoFill, lePS, leS, List.filter]
    rw [h1, h2]
    simp

/-- C4 (amended): on every exit path of `/transcribe`, the `finally` block
attempts to delete exactly the persisted upload and the gated audio file among
the files created for the request (each deletion wrapped in
`try/except: pass`, so a failing deletion is swallowed); the raw MIDI produced
by the external tool (and the cleaned MIDI) is never deleted.  (The original
claim that the raw MIDI is deleted too fails, see the counterexample.) -/
theorem C4_cleanup_removes_upload_and_gated_only (env : Main.TEnv) :
    (Main.transcribe env).removed = (Main.transcribe env).created.filter
      (fun q => decide (q = Main.FPath.upload env.uuid env.filename ∨
        q = Main.FPath.gated env.uuid env.filename)) ∧
    (∀ name, Main.FPath.outMidi name ∉ (Main.transcribe env).removed) ∧
    (∀ name, Main.FPath.cleaned name ∉ (Main.transcribe env).removed) := by
  obtain ⟨u, f, ge, rf, so, se, ms, li, ce⟩ := env
  cases ge <;> cases rf <;> cases ms <;> cases ce <;>
    simp [Main.transcribe, Main.finallyCleanup, List.filter]

/-- C4 counterexample: on the success path the raw MIDI discovered in the
output directory is an intermediate file created for the request, yet the
`finally` block does not delete it ([`input_path`, `gated_path`] is the whole
deletion list). -/
theorem C4_raw_midi_counterexample :
    Main.FPath.outMidi "gated_basic_pitch.mid" ∈
      (Main.transcribe ⟨"u", "f.wav", none, false, "out", "err",
        ["gated_basic_pitch.mid"], 0, none⟩).created ∧
    Main.FPath.outMidi "gated_basic_pitch.mid" ∉
      (Main.transcribe ⟨"u", "f.wav", none, false, "out", "err",
        ["gated_basic_pitch.mid"], 0, none⟩).removed := by
  constructor <;> simp [Main.transcribe, Main.finallyCleanup, List.filter]

/-- C9: every failure of a `/transcribe` request is returned as a structured
error payload rather than raised: an exception before the subprocess yields
`{"error": str(e)}`; a non-zero exit of the external tool yields the CLI-error
payload with the captured stdout and stderr; an empty glob after a successful
run yields the missing-output payload with the captured stdout and stderr; an
exception inside the MIDI cleanup yields `{"error": str(e)}`. -/
theorem C9_failures_become_error_payloads (env : Main.TEnv) :
    (∀ e, env.gateError = some e →
      (Main.transcribe env).response = Main.TResponse.errorResponse e none none) ∧
    (env.gateError = none → env.runFails = true →
      (Main.transcribe env).response = Main.TResponse.errorResponse
        "Basic Pitch failed (CLI error)." (some env.stdout) (some env.stderr)) ∧
    (env.gateError = none → env.runFails = false → env.«matches» = [] →
      (Main.transcribe env).response = Main.TResponse.errorResponse
        "No MIDI file produced by Basic Pitch." (some env.stdout) (some env.stderr)) ∧
    (∀ e, env.gateError = none → env.runFails = false → env.«matches» ≠ [] →
      env.cleanError = some e →
      (Main.transcribe env).response = Main.TResponse.errorResponse e none none) := by
  obtain ⟨u, f, ge, rf, so, se, ms, li, ce⟩ := env
  refine ⟨?_, ?_, ?_, ?_⟩
  · rintro e rfl
    simp [Main.transcribe]
  · rintro rfl rfl
    simp [Main.transcribe]
  · rintro rfl rfl rfl
    simp [Main.transcribe]
  · rintro e rfl rfl hne rfl
    simp [Main.transcribe, List.isEmpty_iff, hne]

/-- C9 witness: one concrete environment per failure kind, with the response
the handler returns there. -/
theorem C9_failure_witness :
    (Main.transcribe ⟨"u", "f", some "boom", false, "o", "e", [], 0, none⟩).response =
      Main.TResponse.errorResponse "boom" none none ∧
    (Main.transcribe ⟨"u", "f", none, true, "o", "e", [], 0, none⟩).response =
      Main.TResponse.errorResponse "Basic Pitch failed (CLI error)."
        (some "o") (some "e") ∧
    (Main.transcribe ⟨"u", "f", none, false, "o", "e", [], 0, none⟩).response =
      Main.TResponse.errorResponse "No MIDI file produced by Basic Pitch."
        (some "o") (some "e") ∧
    (Main.transcribe ⟨"u", "f", none, false, "o", "e", ["m.mid"], 0,
        some "bad midi"⟩).response =
      Main.TResponse.errorResponse "bad midi" none none :=
  ⟨(C9_failures_become_error_payloads
      ⟨"u", "f", some "boom", false, "o", "e", [], 0, none⟩).1 "boom" rfl,
   (C9_failures_become_error_payloads
      ⟨"u", "f", none, true, "o", "e", [], 0, none⟩).2.1 rfl rfl,
   (C9_failures_become_error_payloads
      ⟨"u", "f", none, false, "o", "e", [], 0, none⟩).2.2.1 rfl rfl rfl,
   (C9_failures_become_error_payloads
      ⟨"u", "f", none, false, "o", "e", ["m.mid"], 0, some "bad midi"⟩).2.2.2
      "bad midi" rfl rfl (by simp) rfl⟩

/-- C8: for a nonnegative RMS threshold (the code's `RMS_THRESHOLD = 0.02` is
one; for nonnegative `t`, `rms ≥ t` is equivalent to the embedded squared
comparison `meanSq ≥ t²`), the loudness gate returns a buffer of the same
length as its input, and every sample whose expanded windowed RMS value lies
below the threshold is zero in the output — including the samples of the last partial window, which the
padded framing still covers with an RMS estimate. -/
theorem C8_gate_length_and_zeroing (y : List ℚ) (t : ℚ) (ht : 0 ≤ t) :
    (Main.apply_loudness_gate y t).length = y.length ∧
    ∀ i : ℕ, i < y.length → (Main.rmsExpanded y).getD i 0 < t ^ 2 →
      (Main.apply_loudness_gate y t).getD i 0 = 0 := by
  have hlen : (Main.apply_loudness_gate y t).length = y.length := by
    unfold Main.apply_loudness_gate
    rw [List.length_zipWith, Main.rmsExpanded_length, min_self]
  refine ⟨hlen, ?_⟩
  intro i hi hlt
  have hi2 : i < (Main.apply_loudness_gate y t).length := by
    rw [hlen]; exact hi
  rw [List.getD_eq_getElem _ _ hi2]
  have hie : i < (Main.rmsExpanded y).length := by
    rw [Main.rmsExpanded_length]; exact hi
  rw [List.getD_eq_getElem _ _ hie] at hlt
  unfold Main.apply_loudness_gate
  rw [List.getElem_zipWith]
  exact if_neg (not_le_of_lt hlt)

/-- C8 witness: for the one-sample signal `[1/100]` and threshold 1, the
output has length 1 and the sample is gated to zero (its windowed mean square
`1/20480000` is below `1^2`). -/
theorem C8_gate_witness :
    (0:ℚ) ≤ 1 ∧
    (Main.apply_loudness_gate [1/100] 1).length = ([1/100] : List ℚ).length ∧
    (Main.apply_loudness_gate [1/100] 1).getD 0 0 = 0 :=
  ⟨by norm_num,
   (C8_gate_length_and_zeroing [1/100] 1 (by norm_num)).1,
   (C8_gate_length_and_zeroing [1/100] 1 (by norm_num)).2 0 (by norm_num)
     (by rw [Main.rmsExpanded_single]; norm_num [List.getD_cons_zero])⟩
